import Mathlib

/-!
Verification of the version-classification and deletion-lifecycle helpers of
the hcp-terraform-operator controller (`internal/controller/helpers.go`).

The Go code is shallowly embedded: the two anchored regular expressions of
`parseTFEVersionDetailed` are rendered as deterministic matchers on `List Char`
(both patterns are backtracking-free: every quantified class is followed by a
character it cannot match), `strconv.Atoi` on the digit-only captures is
`atoi`, and the generic predicates `needToAddFinalizer` / `isDeletionCandidate`
read a snapshot of an object's deletion timestamp and finalizer list.
-/

/-- Numeric value of an ASCII digit character, as `strconv.Atoi` accumulates it
(`c - '0'`; `'0'.toNat = 48`). -/
def digitVal (c : Char) : Nat :=
  c.toNat - 48

/-- Decimal value of a digit string, accumulated left to right as
`strconv.Atoi` does. -/
def digitsToNat (s : List Char) : Nat :=
  s.foldl (fun acc c => 10 * acc + digitVal c) 0

/-- `math.MaxInt64`, the largest value of Go's 64-bit `int`. -/
def maxInt64 : Nat := 2 ^ 63 - 1

/-- Reduction of an integer to the two's-complement range of Go's 64-bit
`int`, the representative of its class modulo 2^64 inside [-2^63, 2^63). -/
def wrap64 (z : Int) : Int :=
  (z + 2 ^ 63) % 2 ^ 64 - 2 ^ 63

/-- Go `int` addition: 64-bit two's-complement, wrapping on overflow. -/
def goAdd (a b : Int) : Int :=
  wrap64 (a + b)

/-- Go `int` multiplication: 64-bit two's-complement, wrapping on overflow. -/
def goMul (a b : Int) : Int :=
  wrap64 (a * b)

/-- `strconv.Atoi`, restricted to the shapes that reach it here: every call
site passes a regex capture of `[0-9]+` (or the 7-digit legacy concatenation),
so the sign branches of the Go function are never taken, but the range check
is live: the semantic captures can carry arbitrarily many digits, and Go
returns `ErrRange` once the decimal value exceeds `math.MaxInt64`. On a
non-empty all-digit string whose value is within range it returns that value;
anything else fails. -/
def atoi (s : List Char) : Option Int :=
  if !s.isEmpty && s.all Char.isDigit && digitsToNat s ≤ maxInt64 then
    some ((digitsToNat s : Nat) : Int)
  else none

/-- `legacyVersionThreshold` from helpers.go: threshold for legacy versions,
`v202409-1` encoded. -/
def legacyVersionThreshold : Int := 2024091

/-- `semanticVersionBase` from helpers.go: any semantic encoded value starts at
or above this. -/
def semanticVersionBase : Int := 300000000

/-- The anchored legacy pattern of helpers.go, `^v([0-9]{6})-([0-9]{1})$`:
a literal `v`, a capture of exactly six ASCII digits, a literal `-`, a capture
of exactly one ASCII digit, end of text. Returns the two captures. -/
def legacyMatch (s : List Char) : Option (List Char × List Char) :=
  match s with
  | [] => none
  | c :: rest =>
    if c = 'v' then
      match rest.drop 6 with
      | [d, r] =>
        if d = '-' && (rest.take 6).length = 6 && (rest.take 6).all Char.isDigit
            && r.isDigit then
          some (rest.take 6, [r])
        else none
      | _ => none
    else none

/-- The anchored semantic pattern of helpers.go,
`^([0-9]+)\.([0-9]+)\.([0-9]+)(?:[-+].*)?$`: three captures of one-or-more
ASCII digits separated by dots, optionally followed by `-` or `+` and a tail
that `.*` can match (RE2: any characters except a line feed) up to end of
text. Each `[0-9]+` is greedy and is followed by a character it cannot match,
so the maximal digit run (`takeWhile`) is the only possible capture. -/
def semanticMatch (s : List Char) : Option (List Char × List Char × List Char) :=
  let maj := s.takeWhile Char.isDigit
  if maj.isEmpty then none else
  match s.dropWhile Char.isDigit with
  | [] => none
  | d1 :: s1 =>
    if d1 = '.' then
      let minor := s1.takeWhile Char.isDigit
      if minor.isEmpty then none else
      match s1.dropWhile Char.isDigit with
      | [] => none
      | d2 :: s2 =>
        if d2 = '.' then
          let patch := s2.takeWhile Char.isDigit
          if patch.isEmpty then none else
          match s2.dropWhile Char.isDigit with
          | [] => some (maj, minor, patch)
          | c :: tail =>
            if (c = '-' || c = '+') && tail.all (fun ch => ch ≠ '\n') then
              some (maj, minor, patch)
            else none
        else none
    else none

/-- The error values `parseTFEVersionDetailed` can build, one constructor per
`fmt.Errorf` call site, each carrying the offending input string. -/
inductive TFEVersionError where
  | legacyParseFailure (version : String)
  | majorParseFailure (version : String)
  | minorParseFailure (version : String)
  | patchParseFailure (version : String)
  | malformed (version : String)
deriving DecidableEq, Repr

/-- `parseTFEVersionDetailed` from helpers.go: try the legacy pattern first,
concatenate its two captures and parse them as one decimal integer
(isSemantic=false); otherwise try the semantic pattern and encode its three
captures as `semanticVersionBase + major*1_000_000 + minor*1_000 + patch`,
each `+` and `*` being Go 64-bit `int` arithmetic that wraps on overflow
(isSemantic=true); otherwise fail with the malformed-version error. -/
def parseTFEVersionDetailed (version : String) : Except TFEVersionError (Int × Bool) :=
  match legacyMatch version.data with
  | some (ym, rev) =>
    match atoi (ym ++ rev) with
    | some versionNum => .ok (versionNum, false)
    | none => .error (.legacyParseFailure version)
  | none =>
    match semanticMatch version.data with
    | some (maj, minor, patch) =>
      match atoi maj with
      | none => .error (.majorParseFailure version)
      | some major =>
        match atoi minor with
        | none => .error (.minorParseFailure version)
        | some minor' =>
          match atoi patch with
          | none => .error (.patchParseFailure version)
          | some patch' =>
            .ok (goAdd (goAdd (goAdd semanticVersionBase (goMul major 1000000))
              (goMul minor' 1000)) patch', true)
    | none => .error (.malformed version)

/-- `parseTFEVersion` from helpers.go: the backward-compatible wrapper that
drops the isSemantic flag. -/
def parseTFEVersion (version : String) : Except TFEVersionError Int :=
  (parseTFEVersionDetailed version).map Prod.fst

/-- The algorithm-selection rule consumed by the controller (helpers_test.go,
"Algorithm selection logic"): `isSemantic || versionNum >= legacyVersionThreshold`. -/
def usesModernBehavior (encodedValue : Int) (isSemantic : Bool) : Bool :=
  isSemantic || legacyVersionThreshold ≤ encodedValue

/-- Snapshot of a managed Kubernetes object as the two guard predicates observe
it: `GetDeletionTimestamp()` (absent when the pointer is nil, i.e. `IsZero`)
and `GetFinalizers()`. -/
structure ManagedResource where
  deletionTimestamp : Option Nat
  finalizers : List String
deriving DecidableEq, Repr

/-- `o.GetDeletionTimestamp().IsZero()`: true when no deletion timestamp is set. -/
def deletionTimestampIsZero (o : ManagedResource) : Bool :=
  o.deletionTimestamp.isNone

/-- `controllerutil.ContainsFinalizer`: membership of the token in the
object's finalizer list. -/
def containsFinalizer (o : ManagedResource) (finalizer : String) : Bool :=
  o.finalizers.contains finalizer

/-- `needToAddFinalizer` from helpers.go: the object is not marked for
deletion and does not contain the finalizer. -/
def needToAddFinalizer (o : ManagedResource) (finalizer : String) : Bool :=
  deletionTimestampIsZero o && !containsFinalizer o finalizer

/-- `isDeletionCandidate` from helpers.go: the object is marked for deletion
and contains the finalizer. -/
def isDeletionCandidate (o : ManagedResource) (finalizer : String) : Bool :=
  !deletionTimestampIsZero o && containsFinalizer o finalizer

/-- Variant classifier that tries the semantic grammar before the legacy one,
used only to compare against `parseTFEVersionDetailed`; apart from the order
of the two pattern attempts it is the same function. -/
def parseTFEVersionSemanticFirst (version : String) : Except TFEVersionError (Int × Bool) :=
  match semanticMatch version.data with
  | some (maj, minor, patch) =>
    match atoi maj with
    | none => .error (.majorParseFailure version)
    | some major =>
      match atoi minor with
      | none => .error (.minorParseFailure version)
      | some minor' =>
        match atoi patch with
        | none => .error (.patchParseFailure version)
        | some patch' =>
          .ok (goAdd (goAdd (goAdd semanticVersionBase (goMul major 1000000))
            (goMul minor' 1000)) patch', true)
  | none =>
    match legacyMatch version.data with
    | some (ym, rev) =>
      match atoi (ym ++ rev) with
      | some versionNum => .ok (versionNum, false)
      | none => .error (.legacyParseFailure version)
    | none => .error (.malformed version)

theorem digitVal_le_nine (c : Char) (h : c.isDigit = true) : digitVal c ≤ 9 := by
  have h2 : c.val ≤ 57 := by
    simp only [Char.isDigit, Bool.and_eq_true, decide_eq_true_eq] at h
    exact h.2
  have h3 : c.val.toNat ≤ 57 := UInt32.toNat_le_of_le (by decide) h2
  simp only [digitVal, Char.toNat]
  omega

theorem digitsToNat_foldl_lt (l : List Char) :
    ∀ a : Nat, l.all Char.isDigit = true →
      l.foldl (fun acc c => 10 * acc + digitVal c) a < (a + 1) * 10 ^ l.length := by
  induction l with
  | nil => intro a _; simp
  | cons c t ih =>
    intro a h
    simp only [List.all_cons, Bool.and_eq_true] at h
    have hc : digitVal c ≤ 9 := digitVal_le_nine c h.1
    have hrec := ih (10 * a + digitVal c) h.2
    have hstep : (10 * a + digitVal c + 1) * 10 ^ t.length ≤ (a + 1) * 10 ^ (t.length + 1) := by
      have : 10 * a + digitVal c + 1 ≤ (a + 1) * 10 := by omega
      calc (10 * a + digitVal c + 1) * 10 ^ t.length
          ≤ (a + 1) * 10 * 10 ^ t.length := Nat.mul_le_mul_right _ this
        _ = (a + 1) * 10 ^ (t.length + 1) := by ring
    simp only [List.foldl_cons, List.length_cons]
    exact lt_of_lt_of_le hrec hstep

theorem digitsToNat_lt (l : List Char) (h : l.all Char.isDigit = true) :
    digitsToNat l < 10 ^ l.length := by
  have := digitsToNat_foldl_lt l 0 h
  simpa [digitsToNat] using this

theorem atoi_eq_some (s : List Char) (hne : s ≠ []) (hd : s.all Char.isDigit = true)
    (hle : digitsToNat s ≤ maxInt64) :
    atoi s = some ((digitsToNat s : Nat) : Int) := by
  simp [atoi, hne, hd, hle]

theorem legacyMatch_head (s : List Char) (p : List Char × List Char)
    (h : legacyMatch s = some p) : ∃ t, s = 'v' :: t := by
  match s with
  | [] => simp [legacyMatch] at h
  | c :: rest =>
    by_cases hc : c = 'v'
    · exact ⟨rest, by rw [hc]⟩
    · simp [legacyMatch, hc] at h

theorem legacyMatch_captures (s : List Char) (ym rev : List Char)
    (h : legacyMatch s = some (ym, rev)) :
    ym.length = 6 ∧ ym.all Char.isDigit = true ∧ ∃ r, rev = [r] ∧ r.isDigit = true := by
  match s with
  | [] => simp [legacyMatch] at h
  | c :: rest =>
    by_cases hc : c = 'v'
    case neg => simp [legacyMatch, hc] at h
    case pos =>
      match hdrop : rest.drop 6 with
      | [] => simp [legacyMatch, hc, hdrop] at h
      | [d] => simp [legacyMatch, hc, hdrop] at h
      | d :: r :: u :: t => simp [legacyMatch, hc, hdrop] at h
      | [d, r] =>
        simp only [legacyMatch, hc, hdrop, if_true] at h
        split at h
        · rename_i hguard
          simp only [Bool.and_eq_true, decide_eq_true_eq] at hguard
          obtain ⟨⟨⟨_, hlen⟩, hall⟩, hr⟩ := hguard
          simp only [Option.some.injEq, Prod.mk.injEq] at h
          obtain ⟨hym, hrev⟩ := h
          exact ⟨hym ▸ hlen, hym ▸ hall, r, hrev.symm, hr⟩
        · exact absurd h (by simp)

theorem semanticMatch_captures (s maj minor patch : List Char)
    (h : semanticMatch s = some (maj, minor, patch)) :
    (maj ≠ [] ∧ maj.all Char.isDigit = true) ∧
      (minor ≠ [] ∧ minor.all Char.isDigit = true) ∧
      (patch ≠ [] ∧ patch.all Char.isDigit = true) := by
  simp only [semanticMatch] at h
  split at h
  · simp at h
  rename_i hne1
  split at h
  · simp at h
  split at h
  case isFalse => simp at h
  split at h
  · simp at h
  rename_i hne2
  split at h
  · simp at h
  split at h
  case isFalse => simp at h
  split at h
  · simp at h
  rename_i hne3
  split at h
  · simp only [Option.some.injEq, Prod.mk.injEq] at h
    obtain ⟨h1, h2, h3⟩ := h
    subst h1; subst h2; subst h3
    rw [List.isEmpty_eq_true] at hne1 hne2 hne3
    exact ⟨⟨hne1, List.all_takeWhile⟩, ⟨hne2, List.all_takeWhile⟩, ⟨hne3, List.all_takeWhile⟩⟩
  split at h
  case isFalse => simp at h
  simp only [Option.some.injEq, Prod.mk.injEq] at h
  obtain ⟨h1, h2, h3⟩ := h
  subst h1; subst h2; subst h3
  rw [List.isEmpty_eq_true] at hne1 hne2 hne3
  exact ⟨⟨hne1, List.all_takeWhile⟩, ⟨hne2, List.all_takeWhile⟩, ⟨hne3, List.all_takeWhile⟩⟩

theorem atoi_some_val (s : List Char) (n : Int) (h : atoi s = some n) :
    n = ((digitsToNat s : Nat) : Int) := by
  simp only [atoi] at h
  split at h
  · exact (Option.some.inj h).symm
  · exact absurd h (by simp)

theorem atoi_some_le (s : List Char) (n : Int) (h : atoi s = some n) :
    digitsToNat s ≤ maxInt64 := by
  simp only [atoi] at h
  split at h
  · rename_i hc
    simp only [Bool.and_eq_true, decide_eq_true_eq] at hc
    exact hc.2
  · exact absurd h (by simp)

theorem wrap64_eq_self (z : Int) (h1 : -9223372036854775808 ≤ z)
    (h2 : z < 9223372036854775808) : wrap64 z = z := by
  have e1 : (2 : Int) ^ 63 = 9223372036854775808 := by norm_num
  have e2 : (2 : Int) ^ 64 = 18446744073709551616 := by norm_num
  simp only [wrap64, e1, e2]
  omega

theorem goEncode_eq_exact (A B C : Int) (h0a : 0 ≤ A) (h0b : 0 ≤ B) (h0c : 0 ≤ C)
    (hS : semanticVersionBase + A * 1000000 + B * 1000 + C ≤ 9223372036854775807) :
    goAdd (goAdd (goAdd semanticVersionBase (goMul A 1000000)) (goMul B 1000)) C =
      semanticVersionBase + A * 1000000 + B * 1000 + C := by
  simp only [semanticVersionBase] at hS ⊢
  have w1 : wrap64 (A * 1000000) = A * 1000000 := wrap64_eq_self _ (by omega) (by omega)
  have w2 : wrap64 (B * 1000) = B * 1000 := wrap64_eq_self _ (by omega) (by omega)
  have w3 : wrap64 ((300000000 : Int) + A * 1000000) = (300000000 : Int) + A * 1000000 :=
    wrap64_eq_self _ (by omega) (by omega)
  have w4 : wrap64 ((300000000 : Int) + A * 1000000 + B * 1000) =
      (300000000 : Int) + A * 1000000 + B * 1000 :=
    wrap64_eq_self _ (by omega) (by omega)
  have w5 : wrap64 ((300000000 : Int) + A * 1000000 + B * 1000 + C) =
      (300000000 : Int) + A * 1000000 + B * 1000 + C :=
    wrap64_eq_self _ (by omega) (by omega)
  simp only [goAdd, goMul, w1, w2, w3, w4, w5]

theorem legacy_semantic_disjoint (s : List Char) :
    legacyMatch s = none ∨ semanticMatch s = none := by
  match s with
  | [] => exact Or.inl rfl
  | c :: t =>
    by_cases hc : c = 'v'
    · right
      subst hc
      have hv : ('v').isDigit = false := by decide
      simp [semanticMatch, List.takeWhile_cons, hv]
    · left
      simp [legacyMatch, hc]

theorem legacy_encoded_lt (ym rev : List Char) (s : List Char)
    (h : legacyMatch s = some (ym, rev)) : digitsToNat (ym ++ rev) < 10000000 := by
  obtain ⟨hlen, hall, r, hrev, hr⟩ := legacyMatch_captures _ _ _ h
  have hd : (ym ++ rev).all Char.isDigit = true := by
    subst hrev
    simp [List.all_append, hall, hr]
  have hl : (ym ++ rev).length = 7 := by
    subst hrev
    simp [List.length_append, hlen]
  have := digitsToNat_lt (ym ++ rev) hd
  rw [hl] at this
  omega

theorem parse_legacy (v : String) (ym rev : List Char)
    (h : legacyMatch v.data = some (ym, rev)) :
    parseTFEVersionDetailed v = .ok (((digitsToNat (ym ++ rev) : Nat) : Int), false) := by
  obtain ⟨_, hall, r, hrev, hr⟩ := legacyMatch_captures _ _ _ h
  have hne : ym ++ rev ≠ [] := by subst hrev; simp
  have hd : (ym ++ rev).all Char.isDigit = true := by
    subst hrev
    simp [List.all_append, hall, hr]
  have hle : digitsToNat (ym ++ rev) ≤ maxInt64 := by
    have hm : maxInt64 = 9223372036854775807 := by norm_num [maxInt64]
    have := legacy_encoded_lt ym rev v.data h
    omega
  simp only [parseTFEVersionDetailed, h, atoi_eq_some (ym ++ rev) hne hd hle]

theorem parse_semantic_branch (v : String) (a b c : List Char)
    (hleg : legacyMatch v.data = none) (hsem : semanticMatch v.data = some (a, b, c)) :
    parseTFEVersionDetailed v =
      (match atoi a with
        | none => .error (.majorParseFailure v)
        | some major =>
          match atoi b with
          | none => .error (.minorParseFailure v)
          | some minor' =>
            match atoi c with
            | none => .error (.patchParseFailure v)
            | some patch' =>
              .ok (goAdd (goAdd (goAdd semanticVersionBase (goMul major 1000000))
                (goMul minor' 1000)) patch', true)) := by
  simp only [parseTFEVersionDetailed, hleg, hsem]

theorem semanticFirst_semantic_branch (v : String) (a b c : List Char)
    (hsem : semanticMatch v.data = some (a, b, c)) :
    parseTFEVersionSemanticFirst v =
      (match atoi a with
        | none => .error (.majorParseFailure v)
        | some major =>
          match atoi b with
          | none => .error (.minorParseFailure v)
          | some minor' =>
            match atoi c with
            | none => .error (.patchParseFailure v)
            | some patch' =>
              .ok (goAdd (goAdd (goAdd semanticVersionBase (goMul major 1000000))
                (goMul minor' 1000)) patch', true)) := by
  simp only [parseTFEVersionSemanticFirst, hsem]

theorem parse_semantic (v : String) (a b c : List Char)
    (h : semanticMatch v.data = some (a, b, c))
    (hla : digitsToNat a ≤ maxInt64) (hlb : digitsToNat b ≤ maxInt64)
    (hlc : digitsToNat c ≤ maxInt64) :
    parseTFEVersionDetailed v =
      .ok (goAdd (goAdd (goAdd semanticVersionBase
        (goMul ((digitsToNat a : Nat) : Int) 1000000))
        (goMul ((digitsToNat b : Nat) : Int) 1000)) ((digitsToNat c : Nat) : Int),
        true) := by
  have hleg : legacyMatch v.data = none := by
    rcases legacy_semantic_disjoint v.data with hl | hs
    · exact hl
    · rw [hs] at h; exact absurd h (by simp)
  obtain ⟨⟨ha1, ha2⟩, ⟨hb1, hb2⟩, ⟨hc1, hc2⟩⟩ := semanticMatch_captures _ _ _ _ h
  simp only [parseTFEVersionDetailed, hleg, h, atoi_eq_some a ha1 ha2 hla,
    atoi_eq_some b hb1 hb2 hlb, atoi_eq_some c hc1 hc2 hlc]

theorem parse_semantic_exact (v : String) (a b c : List Char)
    (h : semanticMatch v.data = some (a, b, c))
    (hS : semanticVersionBase + ((digitsToNat a : Nat) : Int) * 1000000 +
      ((digitsToNat b : Nat) : Int) * 1000 + ((digitsToNat c : Nat) : Int) ≤
        ((maxInt64 : Nat) : Int)) :
    parseTFEVersionDetailed v =
      .ok (semanticVersionBase + ((digitsToNat a : Nat) : Int) * 1000000 +
        ((digitsToNat b : Nat) : Int) * 1000 + ((digitsToNat c : Nat) : Int), true) := by
  have hm : maxInt64 = 9223372036854775807 := by norm_num [maxInt64]
  rw [hm] at hS
  have h0a : (0 : Int) ≤ ((digitsToNat a : Nat) : Int) := Int.natCast_nonneg _
  have h0b : (0 : Int) ≤ ((digitsToNat b : Nat) : Int) := Int.natCast_nonneg _
  have h0c : (0 : Int) ≤ ((digitsToNat c : Nat) : Int) := Int.natCast_nonneg _
  have hSl : semanticVersionBase + ((digitsToNat a : Nat) : Int) * 1000000 +
      ((digitsToNat b : Nat) : Int) * 1000 + ((digitsToNat c : Nat) : Int) ≤
        9223372036854775807 := by
    simp only [semanticVersionBase] at hS ⊢
    omega
  have hla : digitsToNat a ≤ maxInt64 := by
    rw [hm]
    simp only [semanticVersionBase] at hSl
    omega
  have hlb : digitsToNat b ≤ maxInt64 := by
    rw [hm]
    simp only [semanticVersionBase] at hSl
    omega
  have hlc : digitsToNat c ≤ maxInt64 := by
    rw [hm]
    simp only [semanticVersionBase] at hSl
    omega
  rw [parse_semantic v a b c h hla hlb hlc,
    goEncode_eq_exact _ _ _ h0a h0b h0c hSl]

theorem parse_both_fail (v : String) (hleg : legacyMatch v.data = none)
    (hsem : semanticMatch v.data = none) :
    parseTFEVersionDetailed v = .error (.malformed v) := by
  simp only [parseTFEVersionDetailed, hleg, hsem]

theorem parse_ok_false_inv (v : String) (e : Int)
    (h : parseTFEVersionDetailed v = .ok (e, false)) :
    ∃ ym rev, legacyMatch v.data = some (ym, rev) ∧
      e = ((digitsToNat (ym ++ rev) : Nat) : Int) := by
  match hleg : legacyMatch v.data with
  | some (ym, rev) =>
    rw [parse_legacy v ym rev hleg] at h
    simp only [Except.ok.injEq, Prod.mk.injEq] at h
    exact ⟨ym, rev, rfl, h.1.symm⟩
  | none =>
    match hsem : semanticMatch v.data with
    | some (a, b, c) =>
      rw [parse_semantic_branch v a b c hleg hsem] at h
      match hma : atoi a with
      | none => simp [hma] at h
      | some M =>
        match hmb : atoi b with
        | none => simp [hma, hmb] at h
        | some m =>
          match hmc : atoi c with
          | none => simp [hma, hmb, hmc] at h
          | some p => simp [hma, hmb, hmc] at h
    | none =>
      rw [parse_both_fail v hleg hsem] at h
      exact absurd h (by simp)

theorem parse_ok_true_inv (v : String) (e : Int)
    (h : parseTFEVersionDetailed v = .ok (e, true)) :
    ∃ a b c, semanticMatch v.data = some (a, b, c) ∧
      digitsToNat a ≤ maxInt64 ∧ digitsToNat b ≤ maxInt64 ∧ digitsToNat c ≤ maxInt64 ∧
      e = goAdd (goAdd (goAdd semanticVersionBase
        (goMul ((digitsToNat a : Nat) : Int) 1000000))
        (goMul ((digitsToNat b : Nat) : Int) 1000)) ((digitsToNat c : Nat) : Int) := by
  match hleg : legacyMatch v.data with
  | some (ym, rev) =>
    rw [parse_legacy v ym rev hleg] at h
    simp at h
  | none =>
    match hsem : semanticMatch v.data with
    | some (a, b, c) =>
      rw [parse_semantic_branch v a b c hleg hsem] at h
      match hma : atoi a with
      | none => simp [hma] at h
      | some M =>
        match hmb : atoi b with
        | none => simp [hma, hmb] at h
        | some m =>
          match hmc : atoi c with
          | none => simp [hma, hmb, hmc] at h
          | some p =>
            simp only [hma, hmb, hmc, Except.ok.injEq, Prod.mk.injEq] at h
            obtain rfl := atoi_some_val a M hma
            obtain rfl := atoi_some_val b m hmb
            obtain rfl := atoi_some_val c p hmc
            exact ⟨a, b, c, rfl, atoi_some_le a _ hma, atoi_some_le b _ hmb,
              atoi_some_le c _ hmc, h.1.symm⟩
    | none =>
      rw [parse_both_fail v hleg hsem] at h
      exact absurd h (by simp)

example : parseTFEVersionDetailed "v202409-1" = .ok (2024091, false) := rfl
example : parseTFEVersionDetailed "1.0.0" = .ok (301000000, true) := rfl
example : parseTFEVersionDetailed "v202409-10" = .error (.malformed "v202409-10") := rfl
example : parseTFEVersionDetailed "1.0.0-alpha" = .ok (301000000, true) := rfl
example : parseTFEVersionDetailed "v202502-1" = .ok (2025021, false) := rfl
example : parseTFEVersionDetailed "" = .error (.malformed "") := rfl
example : parseTFEVersionDetailed "foo" = .error (.malformed "foo") := rfl
example : parseTFEVersionDetailed "1.0" = .error (.malformed "1.0") := rfl
example : parseTFEVersionDetailed "v20250-1" = .error (.malformed "v20250-1") := rfl
example : parseTFEVersionDetailed "202502-1" = .error (.malformed "202502-1") := rfl
example : parseTFEVersionDetailed "1.0.0.1" = .error (.malformed "1.0.0.1") := rfl
example : parseTFEVersionDetailed "2.1.3-beta.1" = .ok (302001003, true) := rfl
example : parseTFEVersionDetailed "1.0.0+build.123" = .ok (301000000, true) := rfl
example : parseTFEVersionDetailed "v202012-5" = .ok (2020125, false) := rfl
example : parseTFEVersionDetailed "10.12.5" = .ok (310012005, true) := rfl
example : parseTFEVersionDetailed "123456" = .error (.malformed "123456") := rfl

/-- C1 counterexample: the Go 64-bit multiply-add wraps, so the semantic range
is not bounded below by `semanticVersionBase`: "9223372036854775807.0.0" is
accepted as a semantic version yet encodes to 299000000, below the base, and
"18446744073411.575.707" wraps to exactly 2024091, colliding with the legacy
encoding of "v202409-1". -/
theorem C1_counterexample :
    parseTFEVersionDetailed "9223372036854775807.0.0" = .ok (299000000, true) ∧
    (299000000 : Int) < semanticVersionBase ∧
    parseTFEVersionDetailed "18446744073411.575.707" = .ok (2024091, true) ∧
    parseTFEVersionDetailed "v202409-1" = .ok (2024091, false) :=
  ⟨rfl, by decide, rfl, rfl⟩

/-- C1 (amended): every legacy classification encodes strictly below
`semanticVersionBase` (300000000); every semantic classification whose exact
encoding `semanticVersionBase + major*1000000 + minor*1000 + patch` does not
exceed `maxInt64` encodes at or above `semanticVersionBase`; and no legacy
encoding equals the encoding of such an in-range semantic version. -/
theorem C1_value_space_partition :
    (∀ (v : String) (e : Int),
      parseTFEVersionDetailed v = .ok (e, false) → e < semanticVersionBase) ∧
    (∀ (v : String) (a b c : List Char) (e : Int),
      semanticMatch v.data = some (a, b, c) →
      semanticVersionBase + ((digitsToNat a : Nat) : Int) * 1000000 +
        ((digitsToNat b : Nat) : Int) * 1000 + ((digitsToNat c : Nat) : Int) ≤
          ((maxInt64 : Nat) : Int) →
      parseTFEVersionDetailed v = .ok (e, true) → semanticVersionBase ≤ e) ∧
    (∀ (v w : String) (a b c : List Char) (e f : Int),
      parseTFEVersionDetailed v = .ok (e, false) →
      semanticMatch w.data = some (a, b, c) →
      semanticVersionBase + ((digitsToNat a : Nat) : Int) * 1000000 +
        ((digitsToNat b : Nat) : Int) * 1000 + ((digitsToNat c : Nat) : Int) ≤
          ((maxInt64 : Nat) : Int) →
      parseTFEVersionDetailed w = .ok (f, true) → e ≠ f) := by
  have hleg : ∀ (v : String) (e : Int),
      parseTFEVersionDetailed v = .ok (e, false) → e < semanticVersionBase := by
    intro v e h
    obtain ⟨ym, rev, hm, he⟩ := parse_ok_false_inv v e h
    have hlt := legacy_encoded_lt ym rev v.data hm
    subst he
    simp only [semanticVersionBase]
    omega
  have hsem : ∀ (v : String) (a b c : List Char) (e : Int),
      semanticMatch v.data = some (a, b, c) →
      semanticVersionBase + ((digitsToNat a : Nat) : Int) * 1000000 +
        ((digitsToNat b : Nat) : Int) * 1000 + ((digitsToNat c : Nat) : Int) ≤
          ((maxInt64 : Nat) : Int) →
      parseTFEVersionDetailed v = .ok (e, true) → semanticVersionBase ≤ e := by
    intro v a b c e hm hS hp
    rw [parse_semantic_exact v a b c hm hS] at hp
    simp only [Except.ok.injEq, Prod.mk.injEq] at hp
    obtain ⟨he, -⟩ := hp
    subst he
    have h0a : (0 : Int) ≤ ((digitsToNat a : Nat) : Int) := Int.natCast_nonneg _
    have h0b : (0 : Int) ≤ ((digitsToNat b : Nat) : Int) := Int.natCast_nonneg _
    have h0c : (0 : Int) ≤ ((digitsToNat c : Nat) : Int) := Int.natCast_nonneg _
    simp only [semanticVersionBase]
    omega
  refine ⟨hleg, hsem, fun v w a b c e f h1 hm hS h2 => ?_⟩
  have := hleg v e h1
  have := hsem w a b c f hm hS h2
  omega

theorem C1_witness :
    (2024091 : Int) < semanticVersionBase ∧ semanticVersionBase ≤ (301000000 : Int) ∧
      (2024091 : Int) ≠ (301000000 : Int) :=
  ⟨C1_value_space_partition.1 "v202409-1" 2024091 rfl,
   C1_value_space_partition.2.1 "1.0.0" ['1'] ['0'] ['0'] 301000000 rfl (by decide) rfl,
   C1_value_space_partition.2.2 "v202409-1" "1.0.0" ['1'] ['0'] ['0'] 2024091 301000000
     rfl rfl (by decide) rfl⟩

/-- C2: `usesModernBehavior` (isSemantic OR encoded >= legacyVersionThreshold,
with the threshold fixed at 2024091) is true for every semantic classification
regardless of magnitude, true for a legacy classification at or above 2024091,
and false for a legacy classification strictly below it; in particular 2024081
gives false and 2024091 gives true. -/
theorem C2_usesModernBehavior_gate :
    legacyVersionThreshold = 2024091 ∧
    (∀ e : Int, usesModernBehavior e true = true) ∧
    (∀ e : Int, 2024091 ≤ e → usesModernBehavior e false = true) ∧
    (∀ e : Int, e < 2024091 → usesModernBehavior e false = false) ∧
    usesModernBehavior 2024081 false = false ∧
    usesModernBehavior 2024091 false = true := by
  refine ⟨rfl, fun e => rfl, fun e he => ?_, fun e he => ?_, by decide, by decide⟩
  · simp [usesModernBehavior, legacyVersionThreshold, he]
  · simp [usesModernBehavior, legacyVersionThreshold]
    omega

theorem C2_witness :
    usesModernBehavior 2025021 false = true ∧ usesModernBehavior 2020125 false = false :=
  ⟨C2_usesModernBehavior_gate.2.2.1 2025021 (by decide),
   C2_usesModernBehavior_gate.2.2.2.1 2020125 (by decide)⟩

/-- C3: `needToAddFinalizer` is true iff the deletion marker is absent and the
finalizer token is not a member of the resource's finalizer set, and false in
each of the other three (marker, membership) combinations. -/
theorem C3_needToAddFinalizer_iff :
    (∀ (o : ManagedResource) (f : String),
      needToAddFinalizer o f = true ↔ (o.deletionTimestamp = none ∧ f ∉ o.finalizers)) ∧
    (∀ (o : ManagedResource) (f : String),
      o.deletionTimestamp ≠ none ∨ f ∈ o.finalizers → needToAddFinalizer o f = false) := by
  have hiff : ∀ (o : ManagedResource) (f : String),
      needToAddFinalizer o f = true ↔ (o.deletionTimestamp = none ∧ f ∉ o.finalizers) := by
    intro o f
    simp [needToAddFinalizer, deletionTimestampIsZero, containsFinalizer,
      Option.isNone_iff_eq_none]
  refine ⟨hiff, fun o f h => ?_⟩
  rcases Bool.eq_false_or_eq_true (needToAddFinalizer o f) with ht | hf
  · rcases h with h | h
    · exact absurd ((hiff o f).mp ht).1 h
    · exact absurd h ((hiff o f).mp ht).2
  · exact hf

theorem C3_witness :
    needToAddFinalizer ⟨none, []⟩ "tf" = true ∧
      needToAddFinalizer ⟨some 1, []⟩ "tf" = false :=
  ⟨(C3_needToAddFinalizer_iff.1 ⟨none, []⟩ "tf").mpr ⟨rfl, by simp⟩,
   C3_needToAddFinalizer_iff.2 ⟨some 1, []⟩ "tf" (Or.inl (by simp))⟩

/-- C4: `isDeletionCandidate` is true iff the deletion marker is present and
the finalizer token is a member of the finalizer set; for a fixed (resource,
finalizer) pair it is never true together with `needToAddFinalizer`, and in
the two no-action states (marker absent with token present, marker present
with token absent) both predicates are false. -/
theorem C4_isDeletionCandidate_iff :
    (∀ (o : ManagedResource) (f : String),
      isDeletionCandidate o f = true ↔ (o.deletionTimestamp ≠ none ∧ f ∈ o.finalizers)) ∧
    (∀ (o : ManagedResource) (f : String),
      ¬(isDeletionCandidate o f = true ∧ needToAddFinalizer o f = true)) ∧
    (∀ (o : ManagedResource) (f : String), o.deletionTimestamp = none → f ∈ o.finalizers →
      isDeletionCandidate o f = false ∧ needToAddFinalizer o f = false) ∧
    (∀ (o : ManagedResource) (f : String), o.deletionTimestamp ≠ none → f ∉ o.finalizers →
      isDeletionCandidate o f = false ∧ needToAddFinalizer o f = false) := by
  have hiff : ∀ (o : ManagedResource) (f : String),
      isDeletionCandidate o f = true ↔ (o.deletionTimestamp ≠ none ∧ f ∈ o.finalizers) := by
    intro o f
    simp [isDeletionCandidate, deletionTimestampIsZero, containsFinalizer,
      Option.isNone_iff_eq_none, Option.isSome_iff_ne_none]
  refine ⟨hiff, fun o f ⟨h1, h2⟩ => ?_, fun o f h1 h2 => ⟨?_, ?_⟩, fun o f h1 h2 => ⟨?_, ?_⟩⟩
  · simp only [needToAddFinalizer, Bool.and_eq_true, Bool.not_eq_eq_eq_not, Bool.not_true] at h2
    exact absurd ((hiff o f).mp h1).1 (by
      simp only [deletionTimestampIsZero, Option.isNone_iff_eq_none] at h2
      simp [h2.1])
  · simp [isDeletionCandidate, deletionTimestampIsZero, h1]
  · simp [needToAddFinalizer, containsFinalizer, h2]
  · simp [isDeletionCandidate, containsFinalizer, h2]
  · simp [needToAddFinalizer, deletionTimestampIsZero, Option.isNone_iff_eq_none, h1]

theorem C4_witness :
    isDeletionCandidate ⟨some 1, ["tf"]⟩ "tf" = true ∧
      isDeletionCandidate ⟨none, ["tf"]⟩ "tf" = false ∧
      needToAddFinalizer ⟨none, ["tf"]⟩ "tf" = false :=
  ⟨(C4_isDeletionCandidate_iff.1 ⟨some 1, ["tf"]⟩ "tf").mpr ⟨by simp, by simp⟩,
   (C4_isDeletionCandidate_iff.2.2.1 ⟨none, ["tf"]⟩ "tf" rfl (by simp)).1,
   (C4_isDeletionCandidate_iff.2.2.1 ⟨none, ["tf"]⟩ "tf" rfl (by simp)).2⟩

/-- C5 counterexample: "9223372036854775807.0.0" is accepted as a semantic
version, but the returned encoding 299000000 (a wrapped 64-bit value) is not
the exact `semanticVersionBase + major*1000000 + minor*1000 + patch`. -/
theorem C5_counterexample :
    semanticMatch ("9223372036854775807.0.0").data =
      some (['9', '2', '2', '3', '3', '7', '2', '0', '3', '6', '8', '5', '4', '7', '7',
        '5', '8', '0', '7'], ['0'], ['0']) ∧
    parseTFEVersionDetailed "9223372036854775807.0.0" = .ok (299000000, true) ∧
    (299000000 : Int) ≠ semanticVersionBase +
      ((digitsToNat ['9', '2', '2', '3', '3', '7', '2', '0', '3', '6', '8', '5', '4',
        '7', '7', '5', '8', '0', '7'] : Nat) : Int) * 1000000 +
      ((digitsToNat ['0'] : Nat) : Int) * 1000 + ((digitsToNat ['0'] : Nat) : Int) :=
  ⟨rfl, rfl, by decide⟩

/-- C5 (amended): every input accepted as a semantic version with captures
(major, minor, patch) whose exact encoding
`semanticVersionBase + major*1000000 + minor*1000 + patch` does not exceed
`maxInt64` is classified as exactly that value with isSemantic=true,
regardless of any pre-release/build suffix; in particular "1.0.0" encodes to
301000000 with isSemantic=true. -/
theorem C5_semantic_encoding_exact :
    (∀ (v : String) (maj minor patch : List Char),
      semanticMatch v.data = some (maj, minor, patch) →
      semanticVersionBase + ((digitsToNat maj : Nat) : Int) * 1000000 +
        ((digitsToNat minor : Nat) : Int) * 1000 + ((digitsToNat patch : Nat) : Int) ≤
          ((maxInt64 : Nat) : Int) →
      parseTFEVersionDetailed v =
        .ok (semanticVersionBase + ((digitsToNat maj : Nat) : Int) * 1000000 +
          ((digitsToNat minor : Nat) : Int) * 1000 + ((digitsToNat patch : Nat) : Int),
          true)) ∧
    parseTFEVersionDetailed "1.0.0" = .ok (301000000, true) :=
  ⟨parse_semantic_exact, rfl⟩

theorem C5_witness :
    parseTFEVersionDetailed "2.1.3-beta.1" =
      .ok (semanticVersionBase + ((digitsToNat ['2'] : Nat) : Int) * 1000000 +
        ((digitsToNat ['1'] : Nat) : Int) * 1000 + ((digitsToNat ['3'] : Nat) : Int),
        true) :=
  C5_semantic_encoding_exact.1 "2.1.3-beta.1" ['2'] ['1'] ['3'] rfl (by decide)

/-- C6: every input accepted as a legacy version is classified as the decimal
integer read off the six year-month digits concatenated with the revision
digit, with isSemantic=false; in particular "v202409-1" encodes to 2024091
with isSemantic=false. -/
theorem C6_legacy_encoding_exact :
    (∀ (v : String) (ym rev : List Char),
      legacyMatch v.data = some (ym, rev) →
      parseTFEVersionDetailed v = .ok (((digitsToNat (ym ++ rev) : Nat) : Int), false)) ∧
    parseTFEVersionDetailed "v202409-1" = .ok (2024091, false) :=
  ⟨parse_legacy, rfl⟩

theorem C6_witness :
    parseTFEVersionDetailed "v202502-1" =
      .ok (((digitsToNat (['2', '0', '2', '5', '0', '2'] ++ ['1']) : Nat) : Int), false) :=
  C6_legacy_encoding_exact.1 "v202502-1" ['2', '0', '2', '5', '0', '2'] ['1'] rfl

/-- C8 counterexample: "v202409-10" is of the form `v`, six digits, `-`, and
one-or-more digits, but the classifier rejects it (the legacy pattern accepts
exactly one revision digit), refuting the claim that all such strings are
accepted as legacy versions. -/
theorem C8_counterexample :
    parseTFEVersionDetailed "v202409-10" = .error (.malformed "v202409-10") := rfl

/-- C8 (amended): every string of the form a literal `v`, exactly six ASCII
digits, a `-` separator, and exactly one ASCII digit is accepted and
classified as a legacy version (isSemantic=false), while a multi-digit
revision block such as in "v202409-10" is rejected as malformed. -/
theorem C8_legacy_grammar_single_digit :
    (∀ y1 y2 y3 y4 y5 y6 r : Char,
      [y1, y2, y3, y4, y5, y6].all Char.isDigit = true → r.isDigit = true →
      parseTFEVersionDetailed (String.mk ['v', y1, y2, y3, y4, y5, y6, '-', r]) =
        .ok (((digitsToNat [y1, y2, y3, y4, y5, y6, r] : Nat) : Int), false)) ∧
    parseTFEVersionDetailed "v202409-10" = .error (.malformed "v202409-10") := by
  refine ⟨fun y1 y2 y3 y4 y5 y6 r hall hr => ?_, rfl⟩
  have hm : legacyMatch ['v', y1, y2, y3, y4, y5, y6, '-', r] =
      some ([y1, y2, y3, y4, y5, y6], [r]) := by
    simp only [List.all_cons, List.all_nil, Bool.and_eq_true, Bool.and_true] at hall
    simp [legacyMatch, List.drop, List.take, hall, hr]
  have := parse_legacy (String.mk ['v', y1, y2, y3, y4, y5, y6, '-', r])
    [y1, y2, y3, y4, y5, y6] [r] hm
  simpa using this

theorem C8_witness :
    parseTFEVersionDetailed (String.mk ['v', '2', '0', '2', '4', '0', '9', '-', '1']) =
      .ok (((digitsToNat ['2', '0', '2', '4', '0', '9', '1'] : Nat) : Int), false) :=
  C8_legacy_grammar_single_digit.1 '2' '0' '2' '4' '0' '9' '1' (by decide) (by decide)

/-- C9 counterexample: monotonicity fails under Go's wrapping arithmetic even
with minor and patch both 0 (< 1000): "1.0.0" encodes to 301000000 while the
lexicographically larger "9223372036854775807.0.0" wraps down to 299000000. -/
theorem C9_counterexample :
    semanticMatch ("1.0.0").data = some (['1'], ['0'], ['0']) ∧
    semanticMatch ("9223372036854775807.0.0").data =
      some (['9', '2', '2', '3', '3', '7', '2', '0', '3', '6', '8', '5', '4', '7', '7',
        '5', '8', '0', '7'], ['0'], ['0']) ∧
    parseTFEVersionDetailed "1.0.0" = .ok (301000000, true) ∧
    parseTFEVersionDetailed "9223372036854775807.0.0" = .ok (299000000, true) ∧
    digitsToNat ['0'] < 1000 ∧
    digitsToNat ['1'] < digitsToNat ['9', '2', '2', '3', '3', '7', '2', '0', '3', '6',
      '8', '5', '4', '7', '7', '5', '8', '0', '7'] ∧
    ¬((301000000 : Int) < 299000000) :=
  ⟨rfl, rfl, rfl, rfl, by decide, by decide, by decide⟩

/-- C9 (amended): among accepted semantic versions whose minor and patch
values are below 1000 and whose exact encodings
`semanticVersionBase + major*1000000 + minor*1000 + patch` do not exceed
`maxInt64`, the encoding is strictly monotone in the lexicographic order of
(major, minor, patch). -/
theorem C9_semantic_encoding_monotone :
    ∀ (v w : String) (a1 b1 c1 a2 b2 c2 : List Char) (e1 e2 : Int),
      semanticMatch v.data = some (a1, b1, c1) →
      semanticMatch w.data = some (a2, b2, c2) →
      semanticVersionBase + ((digitsToNat a1 : Nat) : Int) * 1000000 +
        ((digitsToNat b1 : Nat) : Int) * 1000 + ((digitsToNat c1 : Nat) : Int) ≤
          ((maxInt64 : Nat) : Int) →
      semanticVersionBase + ((digitsToNat a2 : Nat) : Int) * 1000000 +
        ((digitsToNat b2 : Nat) : Int) * 1000 + ((digitsToNat c2 : Nat) : Int) ≤
          ((maxInt64 : Nat) : Int) →
      parseTFEVersionDetailed v = .ok (e1, true) →
      parseTFEVersionDetailed w = .ok (e2, true) →
      digitsToNat b1 < 1000 → digitsToNat c1 < 1000 →
      digitsToNat b2 < 1000 → digitsToNat c2 < 1000 →
      (digitsToNat a1 < digitsToNat a2 ∨
        (digitsToNat a1 = digitsToNat a2 ∧ digitsToNat b1 < digitsToNat b2) ∨
        (digitsToNat a1 = digitsToNat a2 ∧ digitsToNat b1 = digitsToNat b2 ∧
          digitsToNat c1 < digitsToNat c2)) →
      e1 < e2 := by
  intro v w a1 b1 c1 a2 b2 c2 e1 e2 h1 h2 hS1 hS2 hp1 hp2 hb1 hc1 hb2 hc2 hlex
  rw [parse_semantic_exact v a1 b1 c1 h1 hS1] at hp1
  rw [parse_semantic_exact w a2 b2 c2 h2 hS2] at hp2
  simp only [Except.ok.injEq, Prod.mk.injEq, semanticVersionBase] at hp1 hp2
  obtain ⟨he1, -⟩ := hp1
  obtain ⟨he2, -⟩ := hp2
  omega

theorem C9_witness : (301000000 : Int) < 301000001 :=
  C9_semantic_encoding_monotone "1.0.0" "1.0.1" ['1'] ['0'] ['0'] ['1'] ['0'] ['1']
    301000000 301000001 rfl rfl (by decide) (by decide) rfl rfl (by decide) (by decide)
    (by decide) (by decide) (Or.inr (Or.inr ⟨rfl, rfl, by decide⟩))

/-- C10: the legacy and semantic patterns accept disjoint sets of strings, so
a classifier that tries the semantic grammar first is observationally equal to
the implemented legacy-first classifier on every input. -/
theorem C10_grammar_order_immaterial :
    (∀ s : List Char, legacyMatch s = none ∨ semanticMatch s = none) ∧
    (∀ v : String, parseTFEVersionSemanticFirst v = parseTFEVersionDetailed v) := by
  refine ⟨legacy_semantic_disjoint, fun v => ?_⟩
  match hleg : legacyMatch v.data with
  | some (ym, rev) =>
    have hsem : semanticMatch v.data = none := by
      rcases legacy_semantic_disjoint v.data with hl | hs
      · rw [hl] at hleg; simp at hleg
      · exact hs
    rw [parse_legacy v ym rev hleg]
    obtain ⟨_, hall, r, hrev, hr⟩ := legacyMatch_captures _ _ _ hleg
    have hne : ym ++ rev ≠ [] := by subst hrev; simp
    have hd : (ym ++ rev).all Char.isDigit = true := by
      subst hrev; simp [List.all_append, hall, hr]
    have hle : digitsToNat (ym ++ rev) ≤ maxInt64 := by
      have hm : maxInt64 = 9223372036854775807 := by norm_num [maxInt64]
      have := legacy_encoded_lt ym rev v.data hleg
      omega
    simp only [parseTFEVersionSemanticFirst, hsem, hleg,
      atoi_eq_some (ym ++ rev) hne hd hle]
  | none =>
    match hsem : semanticMatch v.data with
    | some (a, b, c) =>
      rw [parse_semantic_branch v a b c hleg hsem,
        semanticFirst_semantic_branch v a b c hsem]
    | none =>
      rw [parse_both_fail v hleg hsem]
      simp only [parseTFEVersionSemanticFirst, hsem, hleg]
